import Mathlib

/-!
Verification of the data-table ingestion / query / export engine.

The definitions below are a shallow embedding of the component's logic:
JS strings are modelled as lists of characters, JS numbers as rationals
plus an explicit NaN constructor, records as association lists (the
synthetic id is an ordinary field, as in the JS object), and the
stateful component as an explicit state record.  JS `Number(...)` and
`parseFloat(...)` are modelled on the decimal-literal fragment (the
hexadecimal / Infinity forms never occur in the inputs considered here).
-/

namespace DataTable

abbrev Chars := List Char

/-- Trim leading and trailing whitespace, as JS `String.prototype.trim`. -/
def trimL (cs : Chars) : Chars :=
  ((cs.dropWhile Char.isWhitespace).reverse.dropWhile Char.isWhitespace).reverse

/-- Split on a single separator character, as JS `split` with a one-char separator. -/
def splitOnChar (sep : Char) : Chars → List Chars
  | [] => [[]]
  | c :: cs =>
    let r := splitOnChar sep cs
    if c = sep then [] :: r
    else
      match r with
      | [] => [[c]]
      | h :: t => (c :: h) :: t

/-- Remove every occurrence of a character, as JS `replace` with a global regex. -/
def removeAllChar (ch : Char) (cs : Chars) : Chars := cs.filter (fun c => decide (c ≠ ch))

/-- Remove the first occurrence of a character, as JS `replace` with a plain string. -/
def removeFirst (ch : Char) : Chars → Chars
  | [] => []
  | c :: cs => if c = ch then cs else c :: removeFirst ch cs

/-- Replace each maximal run of whitespace by a single underscore
(JS `replace` of a whitespace-run regex with an underscore). -/
def collapseWsAux : Bool → Chars → Chars
  | run, [] => if run then ['_'] else []
  | run, c :: cs =>
    if c.isWhitespace then collapseWsAux true cs
    else if run then '_' :: c :: collapseWsAux false cs
    else c :: collapseWsAux false cs

def toLowerL (cs : Chars) : Chars := cs.map Char.toLower

/-- Column key derived from a header: lowercase, whitespace runs to underscores. -/
def normalizeKey (cs : Chars) : Chars := collapseWsAux false (toLowerL cs)

def digitVal (c : Char) : Nat := c.toNat - 48

/-- Read a maximal run of decimal digits, returning value, digit count and rest. -/
def readDigits : Chars → Nat → Nat → Nat × Nat × Chars
  | [], acc, n => (acc, n, [])
  | c :: cs, acc, n =>
    if c.isDigit then readDigits cs (10 * acc + digitVal c) (n + 1) else (acc, n, c :: cs)

/-- Read an optional sign, returning whether it was a minus and the rest. -/
def parseSign : Chars → Bool × Chars
  | '-' :: cs => (true, cs)
  | '+' :: cs => (false, cs)
  | cs => (false, cs)

/-- Parse an unsigned decimal mantissa: digits, optionally a dot and more digits,
requiring at least one digit overall; returns its value and the unconsumed rest. -/
def parseMantissa (cs : Chars) : Option (ℚ × Chars) :=
  let (ip, n1, cs1) := readDigits cs 0 0
  match cs1 with
  | '.' :: cs2 =>
    let (fp, n2, cs3) := readDigits cs2 0 0
    if n1 + n2 = 0 then none
    else some ((ip : ℚ) + (fp : ℚ) / (10 : ℚ) ^ n2, cs3)
  | other => if n1 = 0 then none else some ((ip : ℚ), other)

def applyExp (q : ℚ) (neg : Bool) (e : Nat) : ℚ :=
  if neg then q / (10 : ℚ) ^ e else q * (10 : ℚ) ^ e

/-- JS `parseFloat`: parse the longest numeric prefix (decimal fragment);
`none` models NaN.  Trailing garbage is ignored; a dangling exponent marker
without digits is ignored as well. -/
def jsParseFloatL (s : Chars) : Option ℚ :=
  let cs := s.dropWhile Char.isWhitespace
  let (neg, cs1) := parseSign cs
  match parseMantissa cs1 with
  | none => none
  | some (m, rest) =>
    let v :=
      match rest with
      | 'e' :: r =>
        let (eneg, r2) := parseSign r
        let (ev, n, _) := readDigits r2 0 0
        if n = 0 then m else applyExp m eneg ev
      | 'E' :: r =>
        let (eneg, r2) := parseSign r
        let (ev, n, _) := readDigits r2 0 0
        if n = 0 then m else applyExp m eneg ev
      | _ => m
    some (if neg then -v else v)

/-- JS `Number(...)` conversion of a string (as used by `isNaN`): the whole
trimmed string must be a decimal literal; the empty string converts to 0;
`none` models NaN.  (Hexadecimal and Infinity forms are outside the model.) -/
def jsNumberL (s : Chars) : Option ℚ :=
  let cs := trimL s
  if cs = [] then some 0
  else
    let (neg, cs1) := parseSign cs
    match parseMantissa cs1 with
    | none => none
    | some (m, rest) =>
      match rest with
      | [] => some (if neg then -m else m)
      | 'e' :: r =>
        let (eneg, r2) := parseSign r
        let (ev, n, r3) := readDigits r2 0 0
        if n = 0 ∨ r3 ≠ [] then none
        else some (if neg then -(applyExp m eneg ev) else applyExp m eneg ev)
      | 'E' :: r =>
        let (eneg, r2) := parseSign r
        let (ev, n, r3) := readDigits r2 0 0
        if n = 0 ∨ r3 ≠ [] then none
        else some (if neg then -(applyExp m eneg ev) else applyExp m eneg ev)
      | _ => none

/-- The `YYYY-MM-DD` pattern of the source's first date regex. -/
def isDateISO (cs : Chars) : Bool :=
  match cs with
  | [a, b, c, d, '-', e, f, '-', g, h] =>
    a.isDigit && b.isDigit && c.isDigit && d.isDigit && e.isDigit && f.isDigit &&
      g.isDigit && h.isDigit
  | _ => false

/-- The `M/D/YYYY` pattern of the source's second date regex. -/
def isDateUS (cs : Chars) : Bool :=
  match splitOnChar '/' cs with
  | [m, d, y] =>
    decide (1 ≤ m.length) && decide (m.length ≤ 2) && m.all Char.isDigit &&
    decide (1 ≤ d.length) && decide (d.length ≤ 2) && d.all Char.isDigit &&
    decide (y.length = 4) && y.all Char.isDigit
  | _ => false

/-- The two-decimal monetary pattern (digits, dot, exactly two digits). -/
def isMoneyPat (cs : Chars) : Bool :=
  match splitOnChar '.' cs with
  | [a, b] =>
    decide (1 ≤ a.length) && a.all Char.isDigit && decide (b.length = 2) && b.all Char.isDigit
  | _ => false

/-- A stored cell value: a JS number (rational or NaN) or a JS string. -/
inductive Value where
  | num (q : ℚ)
  | nan
  | str (s : Chars)
deriving DecidableEq, Repr

inductive ColType where
  | string
  | number
  | date
  | currency
deriving DecidableEq, Repr

/-- Digit character for a digit value (a star for out-of-range input,
which the callers never produce). -/
def digitChar (d : Nat) : Char :=
  if d = 0 then '0' else if d = 1 then '1' else if d = 2 then '2' else if d = 3 then '3'
  else if d = 4 then '4' else if d = 5 then '5' else if d = 6 then '6' else if d = 7 then '7'
  else if d = 8 then '8' else if d = 9 then '9' else '*'

def natToCharsAux : Nat → Nat → Chars → Chars
  | 0, _, acc => acc
  | fuel + 1, n, acc =>
    if n = 0 then acc else natToCharsAux fuel (n / 10) (digitChar (n % 10) :: acc)

def natToChars (n : Nat) : Chars := if n = 0 then ['0'] else natToCharsAux (n + 1) n []

/-- Decimal digits of a proper fraction rem/den, stopping when the remainder
vanishes (all values arising here have finite decimal expansions). -/
def fracChars : Nat → Nat → Nat → Chars
  | 0, _, _ => []
  | fuel + 1, rem, den =>
    if rem = 0 then [] else digitChar (rem * 10 / den) :: fracChars fuel (rem * 10 % den) den

/-- JS number-to-string conversion for the (finite, decimal) rationals the
model produces: optional minus sign, integer part, and a fractional part
exactly when the value is not an integer. -/
def numToChars (q : ℚ) : Chars :=
  let sign : Chars := if q < 0 then ['-'] else []
  let n := q.num.natAbs
  let d := q.den
  let rem := n % d
  sign ++ natToChars (n / d) ++ (if rem = 0 then [] else '.' :: fracChars 64 rem d)

/-- JS `toString` of a stored value. -/
def jsToChars : Value → Chars
  | Value.num q => numToChars q
  | Value.nan => ['N', 'a', 'N']
  | Value.str s => s

/-- A record is the JS row object: an association list from keys to values.
The synthetic id is an ordinary field (the first one inserted), exactly as
in the source's row literal. -/
abbrev Record := List (Chars × Value)

def alistGet {β : Type} : List (Chars × β) → Chars → Option β
  | [], _ => none
  | (k', v) :: rest, k => if k' = k then some v else alistGet rest k

/-- JS object property assignment: update in place if the key exists,
otherwise append a new field. -/
def setField (r : Record) (k : Chars) (v : Value) : Record :=
  if r.any (fun p => decide (p.1 = k)) then
    r.map (fun p => if p.1 = k then (k, v) else p)
  else r ++ [(k, v)]

def idKey : Chars := ['i', 'd']

/-- Cleaning applied to each CSV field: trim, then strip every double quote. -/
def cleanCell (cs : Chars) : Chars := removeAllChar '"' (trimL cs)

/-- Per-cell detection and conversion, exactly the if/else-if chain of the
source: a full decimal number is parsed and tags the column `number`; a date
pattern keeps the raw string and tags `date`; a leading dollar sign or the
monetary pattern parses the rest (NaN if unparsable) and tags `currency`;
anything else keeps the raw string and leaves the column type untouched. -/
def convertCell (v : Chars) : Value × Option ColType :=
  if (jsNumberL v).isSome && (jsParseFloatL v).isSome && decide (v ≠ []) then
    (match jsParseFloatL v with
     | some q => Value.num q
     | none => Value.nan, some ColType.number)
  else if isDateISO v || isDateUS v then
    (Value.str v, some ColType.date)
  else if decide (v.head? = some '$') || isMoneyPat v then
    (match jsParseFloatL (removeFirst '$' v) with
     | some q => Value.num q
     | none => Value.nan, some ColType.currency)
  else (Value.str v, none)

/-- The classification the per-cell rules assign to a raw string
(`string` when the source's chain falls through without a tag). -/
def detectType (v : Chars) : ColType := ((convertCell v).2).getD ColType.string

/-- One pass of the source's `headers.forEach((header, i) => ...)` over a row:
builds the row's fields and updates the running column types. -/
def processCells : List Chars → Nat → List Chars → Record → List ColType →
    Record × List ColType
  | [], _, _, fields, tys => (fields, tys)
  | h :: hs, i, values, fields, tys =>
    let key := normalizeKey h
    let v := values.getD i []
    let conv := convertCell v
    let fields' := setField fields key conv.1
    let tys' :=
      match conv.2 with
      | some t => tys.set i t
      | none => tys
    processCells hs (i + 1) values fields' tys'

/-- The source's map over data lines: each line is split on commas and
cleaned, the row object starts with the synthetic id, and the running column
types are threaded through (the JS closure mutates `newColumns`). -/
def parseRows (headers : List Chars) : List Chars → Nat → List ColType →
    List Record × List ColType
  | [], _, tys => ([], tys)
  | line :: rest, rid, tys =>
    let values := (splitOnChar ',' line).map cleanCell
    let step := processCells headers 0 values [(idKey, Value.num (rid : ℚ))] tys
    let next := parseRows headers rest (rid + 1) step.2
    (step.1 :: next.1, next.2)

/-- Split the input on newlines and drop lines that are empty after trimming. -/
def splitLines (text : Chars) : List Chars :=
  (splitOnChar '\n' text).filter (fun l => decide (trimL l ≠ []))

structure Column where
  key : Chars
  label : Chars
  sortable : Bool
  filterable : Bool
  type : ColType
deriving DecidableEq, Repr

/-- The CSV branch of `handleFileUpload`: `none` is the empty-input failure
(the toast-and-return path); otherwise the header row yields the column
configuration and the remaining lines the records, with last-write-wins
column types. -/
def parseCSV (text : Chars) : Option (List Column × List Record) :=
  match splitLines text with
  | [] => none
  | headerLine :: dataLines =>
    let headers := (splitOnChar ',' headerLine).map (fun h => removeAllChar '"' (trimL h))
    let tys0 := headers.map (fun _ => ColType.string)
    let parsed := parseRows headers dataLines 1 tys0
    some ((headers.zip parsed.2).map
        (fun p => ⟨normalizeKey p.1, p.1, true, true, p.2⟩), parsed.1)

/-- JS truthiness test on a decoded spreadsheet cell (undefined, 0, NaN and
the empty string are falsy). -/
def jsFalsy : Option Value → Bool
  | none => true
  | some (Value.num q) => decide (q = 0)
  | some Value.nan => true
  | some (Value.str s) => decide (s = [])

/-- The Excel branch's per-cell string: `row[i] || ""` followed by
`toString().trim()` — a falsy cell becomes the empty string before
stringification. -/
def excelCellChars (c : Option Value) : Chars :=
  if jsFalsy c then []
  else
    match c with
    | some v => trimL (jsToChars v)
    | none => []

def excelParseRows (headers : List Chars) : List (List (Option Value)) → Nat →
    List ColType → List Record × List ColType
  | [], _, tys => ([], tys)
  | row :: rest, rid, tys =>
    let values := row.map excelCellChars
    let step := processCells headers 0 values [(idKey, Value.num (rid : ℚ))] tys
    let next := excelParseRows headers rest (rid + 1) step.2
    (step.1 :: next.1, next.2)

/-- The Excel branch of `handleFileUpload`, applied to the decoded sheet
(`sheet_to_json` with header rows).  A falsy header cell is replaced by a
generated placeholder name; the random generator is modelled as an oracle
indexed by column position. -/
def excelParse (placeholder : Nat → Chars) (sheet : List (List (Option Value))) :
    Option (List Column × List Record) :=
  match sheet with
  | [] => none
  | hrow :: rows =>
    let headers := hrow.enum.map (fun p =>
      if jsFalsy p.2 then placeholder p.1
      else
        match p.2 with
        | some v => trimL (jsToChars v)
        | none => [])
    let tys0 := headers.map (fun _ => ColType.string)
    let parsed := excelParseRows headers rows 1 tys0
    some ((headers.zip parsed.2).map
        (fun p => ⟨normalizeKey p.1, p.1, true, true, p.2⟩), parsed.1)

/-- Is `pat` a leading segment of `hay`? -/
def leadsL : Chars → Chars → Bool
  | [], _ => true
  | _ :: _, [] => false
  | a :: as, b :: bs => decide (a = b) && leadsL as bs

/-- JS `includes`: does `pat` occur contiguously inside `hay`? -/
def hasSubL (pat : Chars) : Chars → Bool
  | [] => decide (pat = [])
  | c :: rest => leadsL pat (c :: rest) || hasSubL pat rest

/-- The source's per-record global-filter test: some value of the row object
(the synthetic id included, since `Object.values` lists every field),
lowercased, contains the lowercased filter text. -/
def recordMatches (filt : Chars) (r : Record) : Bool :=
  (r.map Prod.snd).any (fun v => hasSubL (toLowerL filt) (toLowerL (jsToChars v)))

/-- `filteredData`: an empty filter keeps everything. -/
def filteredData (data : List Record) (filt : Chars) : List Record :=
  if filt = [] then data else data.filter (recordMatches filt)

/-- JS strict equality on the two compared cell values (`undefined ===
undefined` holds; NaN is never strictly equal to anything). -/
def jsStrictEq : Option Value → Option Value → Bool
  | none, none => true
  | some (Value.num p), some (Value.num q) => decide (p = q)
  | some (Value.str a), some (Value.str b) => decide (a = b)
  | _, _ => false

/-- Code-unit lexicographic order on JS strings. -/
def charsLt : Chars → Chars → Bool
  | [], [] => false
  | [], _ :: _ => true
  | _ :: _, [] => false
  | a :: as, b :: bs => decide (a < b) || (decide (a = b) && charsLt as bs)

/-- JS `>` on the compared cell values: numeric comparison for numbers,
lexicographic for strings, and for mixed operands the string is coerced
with `Number` (a failed coercion — NaN — makes the comparison false), as
does any comparison involving undefined or NaN. -/
def jsGreater : Option Value → Option Value → Bool
  | some (Value.num p), some (Value.num q) => decide (q < p)
  | some (Value.str a), some (Value.str b) => charsLt b a
  | some (Value.num p), some (Value.str s) =>
    match jsNumberL s with
    | some q => decide (q < p)
    | none => false
  | some (Value.str s), some (Value.num q) =>
    match jsNumberL s with
    | some p => decide (q < p)
    | none => false
  | _, _ => false

/-- The body of the sort comparator. -/
def jsCompare (a b : Option Value) : Int :=
  if jsStrictEq a b then 0 else if jsGreater a b then 1 else -1

/-- The comparator handed to `sort`, including the descending negation. -/
def rowCompare (k : Chars) (desc : Bool) (a b : Record) : Int :=
  if desc then -(jsCompare (alistGet a k) (alistGet b k))
  else jsCompare (alistGet a k) (alistGet b k)

def rowLe (k : Chars) (desc : Bool) (a b : Record) : Bool :=
  decide (rowCompare k desc a b ≤ 0)

/-- Insert into a sorted list, before the first element it need not follow. -/
def insertB {α : Type} (le : α → α → Bool) (x : α) : List α → List α
  | [] => [x]
  | y :: ys => if le x y then x :: y :: ys else y :: insertB le x ys

/-- Stable insertion sort.  ES2019 requires `Array.prototype.sort` to be
stable, and every stable sort agrees with this one whenever the comparator
is consistent. -/
def isortB {α : Type} (le : α → α → Bool) : List α → List α
  | [] => []
  | x :: xs => insertB le x (isortB le xs)

/-- `sortedData`: no sort key leaves the filtered order; otherwise a stable
sort of a copy of the filtered sequence by the JS comparator. -/
def sortedData (fd : List Record) (key : Option Chars) (desc : Bool) : List Record :=
  match key with
  | none => fd
  | some k => isortB (rowLe k desc) fd

/-- `paginatedData`: the slice `[(page-1)*ipp, page*ipp)`. -/
def paginatedData (sd : List Record) (page ipp : Nat) : List Record :=
  (sd.drop ((page - 1) * ipp)).take ipp

/-- `Math.ceil(n / ipp)` on naturals. -/
def totalPages (n ipp : Nat) : Nat := (n + ipp - 1) / ipp

/-- The component state handled by the upload/query logic. -/
structure TableState where
  data : List Record
  columns : List Column
  currentPage : Nat
  sortKey : Option Chars
  sortDesc : Bool
  globalFilter : Chars
  visibleCols : List (Chars × Bool)
deriving DecidableEq, Repr

/-- `updateTableData`: atomically swap in the new table and reset the query
state (all columns visible, page 1, filter cleared, sort cleared). -/
def updateTableData (cols : List Column) (rows : List Record) : TableState :=
  { data := rows
    columns := cols
    currentPage := 1
    sortKey := none
    sortDesc := false
    globalFilter := []
    visibleCols := cols.map (fun c => (c.key, true)) }

/-- A CSV upload event: a failed parse performs no state update at all. -/
def uploadCSV (st : TableState) (text : Chars) : TableState :=
  match parseCSV text with
  | none => st
  | some p => updateTableData p.1 p.2

/-- The derived view of the current state: filter, sort, paginate. -/
def computeView (st : TableState) (ipp : Nat) : List Record :=
  paginatedData (sortedData (filteredData st.data st.globalFilter) st.sortKey st.sortDesc)
    st.currentPage ipp

/-- Computing a view is a pure render pass: it returns the rows and leaves
the component state exactly as it was (`sort` runs on a spread copy of the
filtered array, never on the stored data). -/
def queryStep (st : TableState) (ipp : Nat) : List Record × TableState :=
  (computeView st ipp, st)

def hasCharL (c : Char) (cs : Chars) : Bool := cs.any (fun x => decide (x = c))

/-- RFC-4180-style quoting: wrap in double quotes, doubling inner quotes. -/
def quoteCell (s : Chars) : Chars :=
  '"' :: (s.map (fun c => if c = '"' then ['"', '"'] else [c])).flatten ++ ['"']

/-- `parseFloat`'s implicit string coercion of its argument. -/
def jsCoerceChars : Option Value → Chars
  | some v => jsToChars v
  | none => ['u', 'n', 'd', 'e', 'f', 'i', 'n', 'e', 'd']

/-- One exported field, as in `downloadAsExcel`: currency columns coerce a
non-number value through `parseFloat(value) || 0`; string values containing
a comma or quote are quoted with inner quotes doubled; `join` renders
numbers via `toString` and undefined as the empty string. -/
def exportCell (t : ColType) (v : Option Value) : Chars :=
  let v1 : Option Value :=
    if t = ColType.currency then
      match v with
      | some (Value.num q) => some (Value.num q)
      | some Value.nan => some Value.nan
      | other =>
        some (Value.num (match jsParseFloatL (jsCoerceChars other) with
          | some q => q
          | none => 0))
    else v
  match v1 with
  | some (Value.str s) => if hasCharL ',' s || hasCharL '"' s then quoteCell s else s
  | some (Value.num q) => numToChars q
  | some Value.nan => ['N', 'a', 'N']
  | none => []

def intercalateChars (sep : Chars) : List Chars → Chars
  | [] => []
  | [x] => x
  | x :: y :: xs => x ++ sep ++ intercalateChars sep (y :: xs)

/-- The columns currently visible, in declared order. -/
def visibleColumnsArr (st : TableState) : List Column :=
  st.columns.filter (fun c => (alistGet st.visibleCols c.key).getD false)

def exportRow (cols : List Column) (r : Record) : Chars :=
  intercalateChars [','] (cols.map (fun c => exportCell c.type (alistGet r c.key)))

/-- `downloadAsExcel`'s CSV payload: header labels, then the filtered and
sorted rows (pagination is not applied), joined with newlines. -/
def exportContent (st : TableState) : Chars :=
  let cols := visibleColumnsArr st
  let headerLine := intercalateChars [','] (cols.map Column.label)
  let rows := sortedData (filteredData st.data st.globalFilter) st.sortKey st.sortDesc
  intercalateChars ['\n'] (headerLine :: rows.map (exportRow cols))

/-! Specification-side definitions, phrased after the (amended) claims and
compared against the source-side functions above. -/

/-- How one scanned cell updates the running column type: a detected
non-string classification overwrites it, a string-classified cell leaves it. -/
def stepType (t : ColType) (v : Chars) : ColType :=
  match (convertCell v).2 with
  | some u => u
  | none => t

/-- The cleaned cell of column `i` in a data line. -/
def colCell (i : Nat) (line : Chars) : Chars :=
  ((splitOnChar ',' line).map cleanCell).getD i []

/-- The classification of the last cell of the column that classifies as
something other than string, defaulting to string when no cell does. -/
def lastDetectedType (cells : List Chars) : ColType :=
  (((cells.map detectType).filter (fun t => decide (t ≠ ColType.string))).getLast?).getD
    ColType.string

/-- The cleaned header fields of a delimited-text input. -/
def csvHeaders (text : Chars) : List Chars :=
  match splitLines text with
  | [] => []
  | h :: _ => (splitOnChar ',' h).map (fun x => removeAllChar '"' (trimL x))

/-- Row construction alone, with no column-type state threaded through:
each cell's stored value depends only on that cell's own raw text. -/
def rowFields : List Chars → Nat → List Chars → Record → Record
  | [], _, _, fields => fields
  | h :: hs, i, values, fields =>
    rowFields hs (i + 1) values
      (setField fields (normalizeKey h) (convertCell (values.getD i [])).1)

def rowOf (headers : List Chars) (line : Chars) (rid : Nat) : Record :=
  rowFields headers 0 ((splitOnChar ',' line).map cleanCell) [(idKey, Value.num (rid : ℚ))]

def isNumValue : Value → Bool
  | Value.num _ => true
  | _ => false

/-- The retention test as the claim words it: some column value of the
record (looked up through the table's column keys) contains the filter text
case-insensitively.  The synthetic id is not a column. -/
def claimMatches (cols : List Column) (filt : Chars) (r : Record) : Bool :=
  cols.any (fun c =>
    match alistGet r c.key with
    | some v => hasSubL (toLowerL filt) (toLowerL (jsToChars v))
    | none => false)

/-- The amended retention test: some stored field value of the record — the
synthetic id included — contains the filter text case-insensitively. -/
def amendedMatches (filt : Chars) (r : Record) : Bool :=
  r.any (fun kv => hasSubL (toLowerL filt) (toLowerL (jsToChars kv.2)))

def allNumKey (k : Chars) (l : List Record) : Prop :=
  ∀ r ∈ l, ∃ q : ℚ, alistGet r k = some (Value.num q)

def allStrKey (k : Chars) (l : List Record) : Prop :=
  ∀ r ∈ l, ∃ s : Chars, alistGet r k = some (Value.str s)

/-- All the column's values in the sorted sequence have one primitive JS
type (all numbers or all strings) — on mixed values the JS comparator is
inconsistent and ECMAScript leaves the sort order implementation-defined. -/
def KeyHomogeneous (k : Chars) (l : List Record) : Prop :=
  allNumKey k l ∨ allStrKey k l

def okChar (c : Char) : Bool := decide (c ≠ ',') && decide (c ≠ '"')

def renderVal : Option Value → Chars
  | some (Value.str s) => s
  | some (Value.num q) => numToChars q
  | some Value.nan => ['N', 'a', 'N']
  | none => []

/-- The exported field as the amended claim words it: currency columns keep
a stored number (NaN included) and otherwise take the parsed numeric prefix
of the value's string form, defaulting to 0; then the rendered text is
quoted, with inner quotes doubled, exactly when it contains a comma or a
double quote. -/
def specExportCell (t : ColType) (v : Option Value) : Chars :=
  let v1 : Option Value :=
    if t = ColType.currency then
      match v with
      | some (Value.num q) => some (Value.num q)
      | some Value.nan => some Value.nan
      | other => some (Value.num ((jsParseFloatL (jsCoerceChars other)).getD 0))
    else v
  let s := renderVal v1
  if hasCharL ',' s || hasCharL '"' s then quoteCell s else s

/-! Concrete fixtures used by the counterexamples and witnesses. -/

def emptyState : TableState :=
  { data := [], columns := [], currentPage := 1, sortKey := none, sortDesc := false,
    globalFilter := [], visibleCols := [] }

def c1input : Chars := "Name,Amount\nAlice,$10.50\nBob,20.00\n".toList

def c1cols : List Column :=
  [⟨"name".toList, "Name".toList, true, true, ColType.string⟩,
   ⟨"amount".toList, "Amount".toList, true, true, ColType.number⟩]

def c1rows : List Record :=
  [[(idKey, Value.num 1), ("name".toList, Value.str "Alice".toList),
    ("amount".toList, Value.num ((21 : ℚ) / 2))],
   [(idKey, Value.num 2), ("name".toList, Value.str "Bob".toList),
    ("amount".toList, Value.num 20)]]

def c2text : Chars := "A,B\n1,x\nfoo,2024-01-02".toList

def c2cols : List Column :=
  [⟨"a".toList, "A".toList, true, true, ColType.number⟩,
   ⟨"b".toList, "B".toList, true, true, ColType.date⟩]

def c2rows : List Record :=
  [[(idKey, Value.num 1), ("a".toList, Value.num 1), ("b".toList, Value.str "x".toList)],
   [(idKey, Value.num 2), ("a".toList, Value.str "foo".toList),
    ("b".toList, Value.str "2024-01-02".toList)]]

def c3table : List Record :=
  [[(idKey, Value.num 1), ("name".toList, Value.str "zzz".toList)]]

def c3cols : List Column :=
  [⟨"name".toList, "Name".toList, true, true, ColType.string⟩]

def c4table : List Record :=
  [[(idKey, Value.num 1), ("a".toList, Value.num 2)],
   [(idKey, Value.num 2), ("a".toList, Value.num 1)]]

def c5input : Chars := "A\nfoo\n5".toList

def c5cols : List Column := [⟨"a".toList, "A".toList, true, true, ColType.number⟩]

def c5rows : List Record :=
  [[(idKey, Value.num 1), ("a".toList, Value.str "foo".toList)],
   [(idKey, Value.num 2), ("a".toList, Value.num 5)]]

def c8sheet : List (List (Option Value)) :=
  [[some (Value.str "A".toList)], [some (Value.num 0)]]

def c8placeholder : Nat → Chars := fun _ => "column_x".toList

def c9input : Chars := "A\n$abc".toList

def c9state : TableState := uploadCSV emptyState c9input

def c2cex : Chars := "A\n5\nfoo".toList

def c7text : Chars := " \n  ".toList

def c10state : TableState := { emptyState with data := c4table }

def c10row : Record := [(idKey, Value.num 1), ("a".toList, Value.num 2)]

/-! General lemmas about the stable insertion sort. -/

theorem insertB_perm {α : Type} (le : α → α → Bool) (x : α) (l : List α) :
    (insertB le x l).Perm (x :: l) := by
  induction l with
  | nil => exact List.Perm.refl _
  | cons y ys ih =>
    simp only [insertB]
    split
    · exact List.Perm.refl _
    · exact (ih.cons y).trans (List.Perm.swap x y ys)

theorem isortB_perm {α : Type} (le : α → α → Bool) (l : List α) : (isortB le l).Perm l := by
  induction l with
  | nil => exact List.Perm.refl _
  | cons x xs ih => exact (insertB_perm le x (isortB le xs)).trans (ih.cons x)

theorem sortedData_perm (fd : List Record) (key : Option Chars) (d : Bool) :
    (sortedData fd key d).Perm fd := by
  cases key with
  | none => exact List.Perm.refl _
  | some k => exact isortB_perm _ _

/-! Claim theorems. -/

/-- C1 (counterexample): on the scenario input the settled type of the
`amount` column is `number`, not `currency` as the claim states — the last
data row's cell "20.00" parses fully as a decimal number, and rule 1 has
precedence over the monetary pattern. -/
theorem c1_counterexample :
    parseCSV c1input = some (c1cols, c1rows) ∧
    c1cols.map Column.type = [ColType.string, ColType.number] ∧
    ColType.number ≠ ColType.currency := by decide!

/-- C1 (amended): parsing the scenario input yields headers normalizing to
keys `name` and `amount`, records `{id 1, name "Alice", amount 10.5}` and
`{id 2, name "Bob", amount 20}`, and a final `amount` column type of
`number` (the last row's full-decimal cell wins over the earlier currency
detection). -/
theorem c1_scenario :
    parseCSV c1input = some (c1cols, c1rows) ∧
    c1cols.map Column.key = ["name".toList, "amount".toList] ∧
    c1cols.map Column.type = [ColType.string, ColType.number] := by decide!

/-- C2 (counterexample): for input `"A\n5\nfoo"` the last scanned data row's
cell "foo" classifies as `string`, yet the column's final recorded type is
`number` — a string-classified cell does not overwrite the running type,
contradicting the claim that every row's classification overwrites it. -/
theorem c2_counterexample :
    (parseCSV c2cex).map (fun p => p.1.map Column.type) = some [ColType.number] ∧
    (splitLines c2cex).getLastD [] = "foo".toList ∧
    detectType "foo".toList = ColType.string ∧
    ColType.number ≠ ColType.string := by decide!

/-- C3 (counterexample): with the single record `{id 1, name "zzz"}` and
filter text "1", the code retains the record (the synthetic id is among
`Object.values` and its string form contains "1") although no column value
contains the filter text — the claimed iff over column values fails. -/
theorem c3_counterexample :
    (filteredData c3table "1".toList).length = 1 ∧
    c3table.all (fun r => !(claimMatches c3cols "1".toList r)) = true := by decide!

/-- C3 (amended): the filter retains a record exactly when some stored field
value — the synthetic id included — contains the filter text
case-insensitively; empty filter text retains every record, so the matched
count equals the table size. -/
theorem c3_amended (data : List Record) (f : Chars) :
    filteredData data f = data.filter (fun r => decide (f = []) || amendedMatches f r) ∧
    (∀ r, r ∈ filteredData data f ↔ r ∈ data ∧ (f = [] ∨ amendedMatches f r = true)) ∧
    (filteredData data []).length = data.length := by
  have hm : ∀ r, recordMatches f r = amendedMatches f r := by
    intro r
    unfold recordMatches amendedMatches
    induction r with
    | nil => rfl
    | cons a l ih => simp [List.any_cons, ih]
  have h1 : filteredData data f = data.filter (fun r => decide (f = []) || amendedMatches f r) := by
    by_cases hf : f = []
    · subst hf
      simp [filteredData]
    · unfold filteredData
      rw [if_neg hf]
      refine List.filter_congr (fun r _ => ?_)
      rw [hm r]
      simp [hf]
  refine ⟨h1, fun r => ?_, by simp [filteredData]⟩
  rw [h1]
  simp only [List.mem_filter, Bool.or_eq_true, decide_eq_true_eq]

/-! Lemmas for the last-write-wins type-inference claim. -/

theorem convertCell_snd_ne_string (v : Chars) : (convertCell v).2 ≠ some ColType.string := by
  unfold convertCell
  split
  · simp
  · split
    · simp
    · split <;> simp

theorem stepType_eq (t : ColType) (v : Chars) :
    stepType t v = if detectType v = ColType.string then t else detectType v := by
  unfold stepType detectType
  cases h : (convertCell v).2 with
  | none => simp
  | some u =>
    have hu : u ≠ ColType.string := fun he => convertCell_snd_ne_string v (by rw [h, he])
    simp [hu]

theorem processCells_types_length (hs : List Chars) :
    ∀ (i : Nat) (values : List Chars) (fields : Record) (tys : List ColType),
    (processCells hs i values fields tys).2.length = tys.length := by
  induction hs with
  | nil => intro i values fields tys; rfl
  | cons h hs ih =>
    intro i values fields tys
    simp only [processCells]
    rw [ih]
    cases hc : (convertCell (values.getD i [])).2 with
    | none => rfl
    | some u => exact List.length_set tys i u

theorem processCells_types_getElem? (hs : List Chars) (values : List Chars) (j : Nat) :
    ∀ (i : Nat) (fields : Record) (tys : List ColType),
    (processCells hs i values fields tys).2[j]? =
      if i ≤ j ∧ j < i + hs.length then
        (tys[j]?).map (fun t => stepType t (values.getD j []))
      else tys[j]? := by
  induction hs with
  | nil =>
    intro i fields tys
    rw [if_neg (by simp)]
    rfl
  | cons h hs ih =>
    intro i fields tys
    simp only [processCells]
    rw [ih]
    by_cases hj : j = i
    · subst hj
      rw [if_neg (by omega), if_pos ⟨Nat.le_refl j, by simp only [List.length_cons]; omega⟩]
      cases hc : (convertCell (values.getD j [])).2 with
      | none =>
        have hstep : ∀ t, stepType t (values.getD j []) = t := fun t => by
          unfold stepType; rw [hc]
        cases tys[j]? with
        | none => rfl
        | some val => simp only [Option.map_some']; rw [hstep]
      | some u =>
        have hstep : ∀ t, stepType t (values.getD j []) = u := fun t => by
          unfold stepType; rw [hc]
        rw [List.getElem?_set_self']
        cases tys[j]? with
        | none => rfl
        | some val =>
          simp only [Option.map_some', Function.const]
          rw [hstep]
          rfl
    · have hset : (match (convertCell (values.getD i [])).2 with
          | some t => tys.set i t
          | none => tys)[j]? = tys[j]? := by
        cases hc : (convertCell (values.getD i [])).2 with
        | none => rfl
        | some u => exact List.getElem?_set_ne (fun he => hj he.symm)
      rw [hset]
      by_cases hcond : i + 1 ≤ j ∧ j < i + 1 + hs.length
      · rw [if_pos hcond, if_pos (by simp only [List.length_cons]; omega)]
      · rw [if_neg hcond, if_neg (by simp only [List.length_cons]; omega)]

theorem parseRows_types_length (headers : List Chars) (lines : List Chars) :
    ∀ (rid : Nat) (tys : List ColType),
    (parseRows headers lines rid tys).2.length = tys.length := by
  induction lines with
  | nil => intro rid tys; rfl
  | cons line rest ih =>
    intro rid tys
    simp only [parseRows]
    rw [ih, processCells_types_length]

theorem parseRows_types_getElem? (headers : List Chars) (lines : List Chars) (j : Nat)
    (hj : j < headers.length) :
    ∀ (rid : Nat) (tys : List ColType),
    (parseRows headers lines rid tys).2[j]? =
      (tys[j]?).map (fun t0 => lines.foldl (fun t line => stepType t (colCell j line)) t0) := by
  induction lines with
  | nil =>
    intro rid tys
    simp only [parseRows]
    cases tys[j]? <;> rfl
  | cons line rest ih =>
    intro rid tys
    simp only [parseRows]
    rw [ih, processCells_types_getElem?, if_pos ⟨Nat.zero_le j, by omega⟩]
    cases tys[j]? with
    | none => rfl
    | some t => simp only [Option.map_some', List.foldl_cons]; rfl

theorem getLastD_cons_shift {α : Type} (d a : α) (l : List α) :
    ((a :: l).getLast?).getD d = (l.getLast?).getD a := by
  cases l with
  | nil => rfl
  | cons b bs =>
    obtain ⟨x, hx⟩ := Option.isSome_iff_exists.mp
      (List.getLast?_isSome.mpr (List.cons_ne_nil b bs))
    rw [List.getLast?_cons_cons, hx]
    rfl

theorem foldl_stepType_eq (g : Chars → Chars) (cells : List Chars) :
    ∀ t0 : ColType,
    cells.foldl (fun t v => stepType t (g v)) t0 =
      ((((cells.map g).map detectType).filter (fun t => decide (t ≠ ColType.string))).getLast?).getD
        t0 := by
  induction cells with
  | nil => intro t0; rfl
  | cons c cs ih =>
    intro t0
    rw [List.foldl_cons, ih, stepType_eq]
    by_cases hd : detectType (g c) = ColType.string
    · rw [if_pos hd]
      simp only [List.map_cons, List.filter_cons, hd]
      rw [if_neg (by simp)]
    · rw [if_neg hd]
      simp only [List.map_cons, List.filter_cons]
      rw [if_pos (by simp [hd])]
      exact (getLastD_cons_shift t0 (detectType (g c)) _).symm

/-- C2 (amended): a column's final recorded type is the classification of
the last scanned row whose cell classifies as non-string — string-classified
cells leave the running type untouched — defaulting to `string` when every
cell classifies as string. -/
theorem c2_amended (text : Chars) (cols : List Column) (rows : List Record)
    (hp : parseCSV text = some (cols, rows)) (i : Nat) (hi : i < cols.length) :
    (cols.map Column.type)[i]? =
      some (lastDetectedType (((splitLines text).tail).map (colCell i))) := by
  unfold parseCSV at hp
  split at hp
  · exact absurd hp (by simp)
  · rename_i hl dls heq
    rw [Option.some.injEq, Prod.mk.injEq] at hp
    obtain ⟨hcols, hrows⟩ := hp
    rw [heq, List.tail_cons]
    subst hcols
    set headers := (splitOnChar ',' hl).map (fun h => removeAllChar '"' (trimL h)) with hh
    set tys0 := headers.map (fun _ => ColType.string) with ht0
    have hlen0 : tys0.length = headers.length := List.length_map _ _
    have hlent : (parseRows headers dls 1 tys0).2.length = headers.length := by
      rw [parseRows_types_length, hlen0]
    have hi' : i < headers.length := by
      have : i < (headers.zip (parseRows headers dls 1 tys0).2).length := by
        simpa using hi
      rw [List.length_zip, hlent] at this
      omega
    have ht0i : tys0[i]? = some ColType.string := by
      rw [ht0, List.getElem?_map, List.getElem?_eq_getElem hi']
      rfl
    have htypes : (parseRows headers dls 1 tys0).2[i]? =
        some (dls.foldl (fun t line => stepType t (colCell i line)) ColType.string) := by
      rw [parseRows_types_getElem? headers dls i hi', ht0i]
      rfl
    have hzip : (headers.zip (parseRows headers dls 1 tys0).2)[i]? =
        some (headers.getD i [], dls.foldl (fun t line => stepType t (colCell i line))
          ColType.string) := by
      rw [List.getElem?_zip_eq_some]
      refine ⟨?_, htypes⟩
      rw [List.getElem?_eq_getElem hi']
      simp [List.getD, List.getElem?_eq_getElem hi']
    rw [List.map_map, List.getElem?_map, hzip]
    simp only [Option.map_some']
    rw [foldl_stepType_eq]
    rfl

/-- C2 (witness): on the concrete input `"A,B\n1,x\nfoo,2024-01-02"`, column
0 settles on `number` — the classification of its last non-string cell. -/
theorem c2_amended_witness :
    (c2cols.map Column.type)[0]? =
      some (lastDetectedType (((splitLines c2text).tail).map (colCell 0))) :=
  c2_amended c2text c2cols c2rows (by decide!) 0 (by decide!)

/-! Lemmas for the single-pass row-construction claim. -/

theorem processCells_fields (hs : List Chars) :
    ∀ (i : Nat) (values : List Chars) (fields : Record) (tys : List ColType),
    (processCells hs i values fields tys).1 = rowFields hs i values fields := by
  induction hs with
  | nil => intro i values fields tys; rfl
  | cons h hs ih =>
    intro i values fields tys
    simp only [processCells, rowFields]
    rw [ih]

theorem parseRows_rows_getElem? (headers : List Chars) (lines : List Chars) :
    ∀ (rid : Nat) (tys : List ColType) (j : Nat),
    (parseRows headers lines rid tys).1[j]? =
      (lines[j]?).map (fun line => rowOf headers line (rid + j)) := by
  induction lines with
  | nil => intro rid tys j; rfl
  | cons line rest ih =>
    intro rid tys j
    simp only [parseRows]
    cases j with
    | zero =>
      simp only [List.getElem?_cons_zero, Option.map_some']
      rw [processCells_fields]
      rfl
    | succ j =>
      simp only [List.getElem?_cons_succ]
      rw [ih]
      have harith : rid + 1 + j = rid + (j + 1) := by omega
      rw [harith]

/-- C5 (counterexample): the code performs no build-time re-coercion.  On
input `"A\nfoo\n5"` the column settles on type `number`, yet the first
record stores the plain string "foo" (not a number, and not a zero/empty
fallback) while the second stores the number 5 — cells of one column do not
share a consistent typed representation. -/
theorem c5_counterexample :
    parseCSV c5input = some (c5cols, c5rows) ∧
    c5cols.map Column.type = [ColType.number] ∧
    alistGet (c5rows.getD 0 []) "a".toList = some (Value.str "foo".toList) ∧
    isNumValue (Value.str "foo".toList) = false ∧
    alistGet (c5rows.getD 1 []) "a".toList = some (Value.num 5) := by decide!

/-- C5 (amended): rows are built in the same single scan that detects types:
each record equals the row built from its own line alone — every stored cell
is the per-cell conversion of its own raw text, independent of the column's
settled type and of every other row — and record construction never fails
(ids are the 1-based line positions). -/
theorem c5_amended (text : Chars) (cols : List Column) (rows : List Record)
    (hp : parseCSV text = some (cols, rows)) (j : Nat) :
    rows[j]? = (((splitLines text).tail)[j]?).map
      (fun line => rowOf (csvHeaders text) line (1 + j)) := by
  unfold parseCSV at hp
  split at hp
  · exact absurd hp (by simp)
  · rename_i hl dls heq
    rw [Option.some.injEq, Prod.mk.injEq] at hp
    obtain ⟨hcols, hrows⟩ := hp
    subst hrows
    rw [heq, List.tail_cons]
    rw [parseRows_rows_getElem?]
    have hh : csvHeaders text = (splitOnChar ',' hl).map (fun h => removeAllChar '"' (trimL h)) := by
      unfold csvHeaders
      rw [heq]
    rw [hh]

/-- C5 (witness): the first record of the `"A\nfoo\n5"` table is the row
built from its own line alone. -/
theorem c5_amended_witness :
    c5rows[0]? = (((splitLines c5input).tail)[0]?).map
      (fun line => rowOf (csvHeaders c5input) line (1 + 0)) :=
  c5_amended c5input c5cols c5rows (by decide!) 0

/-! Arithmetic lemmas for pagination. -/

theorem totalPages_mul_ge (n ipp : Nat) (h : 0 < ipp) : n ≤ totalPages n ipp * ipp := by
  unfold totalPages
  rw [Nat.mul_comm]
  have h1 := Nat.div_add_mod (n + ipp - 1) ipp
  have h2 := Nat.mod_lt (n + ipp - 1) h
  omega

theorem totalPages_pred_mul_lt (n ipp : Nat) (h : 0 < ipp) (hn : 0 < n) :
    (totalPages n ipp - 1) * ipp < n := by
  unfold totalPages
  have h3 := Nat.div_mul_le_self (n + ipp - 1) ipp
  rw [Nat.sub_mul, Nat.one_mul]
  omega

theorem totalPages_eq_zero (n ipp : Nat) (h : 0 < ipp) (hn : n = 0) : totalPages n ipp = 0 := by
  subst hn
  unfold totalPages
  exact Nat.div_eq_of_lt (by omega)

theorem totalPages_pos (n ipp : Nat) (h : 0 < ipp) (hn : 0 < n) : 1 ≤ totalPages n ipp := by
  unfold totalPages
  rw [Nat.le_div_iff_mul_le h, Nat.one_mul]
  omega

theorem totalPages_drop (n ipp P : Nat) (h : 0 < ipp) (hP : totalPages n ipp = P + 1) :
    totalPages (n - ipp) ipp = P := by
  unfold totalPages at hP ⊢
  have hn : 0 < n := by
    by_contra hc
    have hn0 : n = 0 := by omega
    subst hn0
    rw [Nat.div_eq_of_lt (by omega)] at hP
    omega
  have h1 := Nat.div_add_mod (n + ipp - 1) ipp
  have h2 := Nat.mod_lt (n + ipp - 1) h
  rw [hP, Nat.mul_succ] at h1
  by_cases hcase : ipp ≤ n
  · have heq : n - ipp + ipp - 1 = n - 1 := by omega
    rw [heq]
    apply Nat.div_eq_of_lt_le
    · rw [Nat.mul_comm]
      omega
    · rw [Nat.succ_mul, Nat.mul_comm P ipp]
      omega
  · have hP0 : P = 0 := by
      by_contra hc
      have h4 : ipp * 1 ≤ ipp * P := Nat.mul_le_mul_left ipp (by omega)
      rw [Nat.mul_one] at h4
      omega
    subst hP0
    have hz : n - ipp = 0 := by omega
    rw [hz]
    exact Nat.div_eq_of_lt (by omega)

theorem pages_sum_aux {α : Type} (ipp : Nat) (hipp : 0 < ipp) :
    ∀ (P : Nat) (l : List α), totalPages l.length ipp = P →
    ((List.range' 1 P).map (fun p => ((l.drop ((p - 1) * ipp)).take ipp).length)).sum
      = l.length := by
  intro P
  induction P with
  | zero =>
    intro l hP
    have hn : l.length = 0 := by
      by_contra hc
      have h1 := totalPages_pos l.length ipp hipp (by omega)
      omega
    simp [hn]
  | succ P ih =>
    intro l hP
    have hdrop : totalPages (l.drop ipp).length ipp = P := by
      rw [List.length_drop]
      exact totalPages_drop l.length ipp P hipp hP
    have hsum := ih (l.drop ipp) hdrop
    rw [List.range'_succ, List.map_cons, List.sum_cons]
    have htail : ((List.range' 2 P).map
          (fun p => ((l.drop ((p - 1) * ipp)).take ipp).length)).sum
        = ((List.range' 1 P).map
          (fun p => (((l.drop ipp).drop ((p - 1) * ipp)).take ipp).length)).sum := by
      rw [List.range'_eq_map_range 2 P, List.range'_eq_map_range 1 P,
        List.map_map, List.map_map]
      refine congrArg List.sum (List.map_congr_left (fun m _ => ?_))
      simp only [Function.comp]
      rw [List.drop_drop]
      have e : (2 + m - 1) * ipp = ipp + (1 + m - 1) * ipp := by
        have e1 : 2 + m - 1 = m + 1 := by omega
        have e2 : 1 + m - 1 = m := by omega
        rw [e1, e2, Nat.succ_mul, Nat.add_comm]
      rw [e]
    rw [htail, hsum]
    have e0 : (1 - 1) * ipp = 0 := by omega
    rw [e0, List.drop_zero]
    simp only [List.length_take, List.length_drop]
    have hn : 0 < l.length := by
      by_contra hc
      have h0 := totalPages_eq_zero l.length ipp hipp (by omega)
      omega
    omega

/-- C6: the page view is the slice `[(page-1)*pageSize, page*pageSize)` of
the filtered-and-sorted sequence; a page beyond the last yields the empty
slice; `totalPages` is the ceiling of totalMatched/pageSize (0 at 0),
characterized by `totalMatched <= totalPages*pageSize` with
`(totalPages-1)*pageSize < totalMatched`; the page-row counts over pages
1..totalPages sum to totalMatched; and every page before the last has
exactly `pageSize` rows. -/
theorem c6_pagination (data : List Record) (gf : Chars) (sk : Option Chars) (sd : Bool)
    (page ipp : Nat) (hipp : 1 ≤ ipp) (hpage : 1 ≤ page)
    (f s : List Record) (hf : f = filteredData data gf) (hs : s = sortedData f sk sd) :
    s.length = f.length ∧
    paginatedData s page ipp = (s.take (page * ipp)).drop ((page - 1) * ipp) ∧
    (totalPages s.length ipp < page → paginatedData s page ipp = []) ∧
    (f.length = 0 → totalPages s.length ipp = 0) ∧
    f.length ≤ totalPages s.length ipp * ipp ∧
    (0 < f.length → (totalPages s.length ipp - 1) * ipp < f.length) ∧
    ((List.range' 1 (totalPages s.length ipp)).map
        (fun p => (paginatedData s p ipp).length)).sum = f.length ∧
    (∀ p, 1 ≤ p → p < totalPages s.length ipp → (paginatedData s p ipp).length = ipp) := by
  have hlen : s.length = f.length := by
    rw [hs]
    exact (sortedData_perm f sk sd).length_eq
  refine ⟨hlen, ?_, ?_, ?_, ?_, ?_, ?_, ?_⟩
  · unfold paginatedData
    rw [List.take_drop]
    have e : (page - 1) * ipp + ipp = page * ipp := by
      have h1 : 1 * ipp ≤ page * ipp := Nat.mul_le_mul_right ipp hpage
      rw [Nat.sub_mul, Nat.one_mul]
      rw [Nat.one_mul] at h1
      omega
    rw [e]
  · intro hbeyond
    unfold paginatedData
    have h1 := totalPages_mul_ge s.length ipp hipp
    have h2 : totalPages s.length ipp ≤ page - 1 := by omega
    have h3 : totalPages s.length ipp * ipp ≤ (page - 1) * ipp :=
      Nat.mul_le_mul_right ipp h2
    rw [List.drop_eq_nil_of_le (by omega)]
    exact List.take_nil
  · intro h0
    rw [hlen]
    exact totalPages_eq_zero f.length ipp hipp h0
  · rw [hlen]
    exact totalPages_mul_ge f.length ipp hipp
  · intro hpos
    rw [hlen]
    exact totalPages_pred_mul_lt f.length ipp hipp hpos
  · rw [← hlen]
    unfold paginatedData
    exact pages_sum_aux ipp hipp (totalPages s.length ipp) s rfl
  · intro p hp1 hp2
    unfold totalPages at hp2
    have hdiv : p + 1 ≤ (s.length + ipp - 1) / ipp := by omega
    have hmul : (p + 1) * ipp ≤ s.length + ipp - 1 := (Nat.le_div_iff_mul_le hipp).mp hdiv
    have hple : p * ipp + ipp ≤ s.length + ipp - 1 := by
      rw [Nat.succ_mul] at hmul
      omega
    have hipple : ipp ≤ p * ipp := by
      have h4 := Nat.mul_le_mul_right ipp hp1
      rwa [Nat.one_mul] at h4
    have e : (p - 1) * ipp = p * ipp - ipp := by
      rw [Nat.sub_mul, Nat.one_mul]
    unfold paginatedData
    simp only [List.length_take, List.length_drop]
    omega

/-- C6 (witness): on a concrete two-record table with page size 1 the
page-row counts over pages 1..totalPages sum to the matched count. -/
theorem c6_witness :
    1 ≤ (1 : Nat) ∧
    ((List.range' 1 (totalPages (sortedData (filteredData c4table []) none false).length 1)).map
        (fun p => (paginatedData (sortedData (filteredData c4table []) none false) p 1).length)).sum
      = (filteredData c4table []).length :=
  ⟨Nat.le_refl 1,
    (c6_pagination c4table [] none false 1 1 (Nat.le_refl 1) (Nat.le_refl 1)
      (filteredData c4table []) (sortedData (filteredData c4table []) none false)
      rfl rfl).2.2.2.2.2.2.1⟩

/-- C7: delimited-text ingestion fails (the empty-input path) exactly when
no line remains after dropping blank-after-trim lines, and a failed load
performs no state update at all: table, columns and query state are
untouched. -/
theorem c7_empty_input (st : TableState) (text : Chars) :
    (parseCSV text = none ↔ splitLines text = []) ∧
    (splitLines text = [] → uploadCSV st text = st) := by
  have hiff : parseCSV text = none ↔ splitLines text = [] := by
    unfold parseCSV
    cases h : splitLines text with
    | nil => simp
    | cons a l => simp
  refine ⟨hiff, fun h => ?_⟩
  unfold uploadCSV
  rw [hiff.mpr h]

/-- C7 (witness): a whitespace-only upload leaves a concrete state unchanged. -/
theorem c7_witness :
    (parseCSV c7text = none ↔ splitLines c7text = []) ∧ uploadCSV emptyState c7text = emptyState :=
  ⟨(c7_empty_input emptyState c7text).1, (c7_empty_input emptyState c7text).2 (by decide!)⟩

/-- C8 (code bug): a spreadsheet data cell holding the numeric value 0 is
falsy, so `row[i] || ""` replaces it by the empty string before
stringification: the stored cell is the empty string and the column type
stays `string`.  Had the cell been stringified to "0" as the claim states,
inference would have classified it `number` with stored value 0 (second
conjunct). -/
theorem c8_code_bug :
    excelParse c8placeholder c8sheet =
      some ([⟨"a".toList, "A".toList, true, true, ColType.string⟩],
            [[(idKey, Value.num 1), ("a".toList, Value.str [])]]) ∧
    convertCell "0".toList = (Value.num 0, some ColType.number) := by decide!

/-- C9 (counterexample): the currency cell parsed from "$abc" stores NaN
(`parseFloat("abc")`), and the export renders it as the text "NaN" — not as
"0", although no numeric amount is present, contradicting the claim. -/
theorem c9_counterexample :
    exportContent c9state = "A\nNaN".toList ∧
    exportContent c9state ≠ "A\n0".toList ∧
    c9state.columns.map Column.type = [ColType.currency] := by decide!

/-! Generic facts about the stable insertion sort. -/

theorem filter_insertB {α : Type} (le : α → α → Bool) (p : α → Bool) (x : α) (l : List α)
    (h : ∀ b ∈ l, p x = true → p b = true → le x b = true) :
    (insertB le x l).filter p = if p x then x :: l.filter p else l.filter p := by
  induction l with
  | nil =>
    simp only [insertB, List.filter_cons, List.filter_nil]
  | cons y ys ih =>
    simp only [insertB]
    split
    · rw [List.filter_cons]
    · rename_i hxy
      rw [List.filter_cons]
      rw [ih (fun b hb hpx hpb => h b (List.mem_cons_of_mem y hb) hpx hpb)]
      by_cases hpx : p x = true
      · by_cases hpy : p y = true
        · exact absurd (h y (List.mem_cons_self y ys) hpx hpy) hxy
        · rw [if_neg hpy, if_pos hpx, if_pos hpx, List.filter_cons, if_neg hpy]
      · by_cases hpy : p y = true
        · rw [if_pos hpy, if_neg hpx, if_neg hpx, List.filter_cons, if_pos hpy]
        · rw [if_neg hpy, if_neg hpx, if_neg hpx, List.filter_cons, if_neg hpy]

theorem filter_isortB {α : Type} (le : α → α → Bool) (p : α → Bool) (l : List α)
    (h : ∀ a b, a ∈ l → b ∈ l → p a = true → p b = true → le a b = true) :
    (isortB le l).filter p = l.filter p := by
  induction l with
  | nil => rfl
  | cons x xs ih =>
    simp only [isortB]
    rw [filter_insertB le p x (isortB le xs)
      (fun b hb hpx hpb => h x b (List.mem_cons_self x xs)
        (List.mem_cons_of_mem x ((isortB_perm le xs).mem_iff.mp hb)) hpx hpb)]
    rw [ih (fun a b ha hb => h a b (List.mem_cons_of_mem _ ha) (List.mem_cons_of_mem _ hb))]
    rw [List.filter_cons]

theorem pairwise_insertB {α : Type} (le : α → α → Bool) (G : α → Prop)
    (htot : ∀ a b, G a → G b → le a b = true ∨ le b a = true)
    (htrans : ∀ a b c, G a → G b → G c → le a b = true → le b c = true → le a c = true)
    (x : α) (l : List α) (hx : G x) (hl : ∀ a ∈ l, G a)
    (hpw : List.Pairwise (fun a b => le a b = true) l) :
    List.Pairwise (fun a b => le a b = true) (insertB le x l) := by
  induction l with
  | nil => exact List.pairwise_singleton _ x
  | cons y ys ih =>
    simp only [insertB]
    split
    · rename_i hxy
      refine List.Pairwise.cons ?_ hpw
      intro z hz
      rcases List.mem_cons.mp hz with rfl | hz'
      · exact hxy
      · exact htrans x y z hx (hl y (List.mem_cons_self y ys))
          (hl z (List.mem_cons_of_mem y hz')) hxy (List.rel_of_pairwise_cons hpw hz')
    · rename_i hxy
      have hyx : le y x = true := by
        rcases htot x y hx (hl y (List.mem_cons_self y ys)) with h | h
        · exact absurd h hxy
        · exact h
      refine List.Pairwise.cons ?_
        (ih (fun a ha => hl a (List.mem_cons_of_mem y ha)) hpw.of_cons)
      intro z hz
      have hz' : z = x ∨ z ∈ ys := by
        have hmem := (insertB_perm le x ys).mem_iff.mp hz
        simpa using hmem
      rcases hz' with rfl | hz'
      · exact hyx
      · exact List.rel_of_pairwise_cons hpw hz'

theorem pairwise_isortB {α : Type} (le : α → α → Bool) (G : α → Prop)
    (htot : ∀ a b, G a → G b → le a b = true ∨ le b a = true)
    (htrans : ∀ a b c, G a → G b → G c → le a b = true → le b c = true → le a c = true)
    (l : List α) (hl : ∀ a ∈ l, G a) :
    List.Pairwise (fun a b => le a b = true) (isortB le l) := by
  induction l with
  | nil => exact List.Pairwise.nil
  | cons x xs ih =>
    simp only [isortB]
    exact pairwise_insertB le G htot htrans x (isortB le xs)
      (hl x (List.mem_cons_self x xs))
      (fun a ha => hl a (List.mem_cons_of_mem x ((isortB_perm le xs).mem_iff.mp ha)))
      (ih (fun a ha => hl a (List.mem_cons_of_mem x ha)))

theorem insertB_of_forall_le {α : Type} (le : α → α → Bool) (x : α) (l : List α)
    (h : ∀ y ∈ l, le x y = true) : insertB le x l = x :: l := by
  cases l with
  | nil => rfl
  | cons y ys =>
    simp only [insertB]
    rw [if_pos (h y (List.mem_cons_self y ys))]

theorem isortB_of_pairwise {α : Type} (le : α → α → Bool) (l : List α)
    (hpw : List.Pairwise (fun a b => le a b = true) l) : isortB le l = l := by
  induction l with
  | nil => rfl
  | cons x xs ih =>
    simp only [isortB]
    rw [ih hpw.of_cons]
    exact insertB_of_forall_le le x xs (fun y hy => List.rel_of_pairwise_cons hpw hy)

theorem eq_of_perm_of_pairwiseB {α : Type} (le : α → α → Bool) :
    ∀ (l₁ l₂ : List α),
    (∀ a b, a ∈ l₁ → b ∈ l₁ → le a b = true → le b a = true → a = b) →
    l₁.Perm l₂ → List.Pairwise (fun a b => le a b = true) l₁ →
    List.Pairwise (fun a b => le a b = true) l₂ → l₁ = l₂ := by
  intro l₁
  induction l₁ with
  | nil =>
    intro l₂ _ hperm _ _
    exact (hperm.symm.eq_nil).symm
  | cons a t ih =>
    intro l₂ hanti hperm hpw1 hpw2
    cases l₂ with
    | nil => exact absurd hperm.eq_nil (by simp)
    | cons b t₂ =>
      have hab : a = b := by
        by_cases h : a = b
        · exact h
        · have hamem : a ∈ b :: t₂ := hperm.mem_iff.mp (List.mem_cons_self a t)
          have hbmem : b ∈ a :: t := hperm.mem_iff.mpr (List.mem_cons_self b t₂)
          have ha2 : a ∈ t₂ := by
            rcases List.mem_cons.mp hamem with h' | h'
            · exact absurd h' h
            · exact h'
          have hb1 : b ∈ t := by
            rcases List.mem_cons.mp hbmem with h' | h'
            · exact absurd h'.symm h
            · exact h'
          exact hanti a b (List.mem_cons_self a t) (List.mem_cons_of_mem a hb1)
            (List.rel_of_pairwise_cons hpw1 hb1) (List.rel_of_pairwise_cons hpw2 ha2)
      subst hab
      have hperm' : t.Perm t₂ := hperm.cons_inv
      rw [ih t₂ (fun x y hx hy => hanti x y (List.mem_cons_of_mem a hx)
        (List.mem_cons_of_mem a hy)) hperm' hpw1.of_cons hpw2.of_cons]

/-! Order facts about the code-unit string comparison. -/

theorem charsLt_irrefl (s : Chars) : charsLt s s = false := by
  induction s with
  | nil => rfl
  | cons c cs ih => simp [charsLt, ih]

theorem charsLt_trans : ∀ {a b c : Chars},
    charsLt a b = true → charsLt b c = true → charsLt a c = true := by
  intro a
  induction a with
  | nil =>
    intro b c h1 h2
    cases b with
    | nil => exact absurd h1 (by simp [charsLt])
    | cons y ys =>
      cases c with
      | nil => exact absurd h2 (by simp [charsLt])
      | cons z zs => rfl
  | cons x xs ih =>
    intro b c h1 h2
    cases b with
    | nil => exact absurd h1 (by simp [charsLt])
    | cons y ys =>
      cases c with
      | nil => exact absurd h2 (by simp [charsLt])
      | cons z zs =>
        simp only [charsLt, Bool.or_eq_true, Bool.and_eq_true, decide_eq_true_eq] at h1 h2 ⊢
        rcases h1 with h1 | ⟨he1, h1⟩
        · rcases h2 with h2 | ⟨he2, h2⟩
          · exact Or.inl (lt_trans h1 h2)
          · exact Or.inl (he2 ▸ h1)
        · rcases h2 with h2 | ⟨he2, h2⟩
          · exact Or.inl (he1 ▸ h2)
          · exact Or.inr ⟨he1.trans he2, ih h1 h2⟩

theorem charsLt_asymm {a b : Chars} (h : charsLt a b = true) : charsLt b a = false := by
  by_contra hc
  have h2 : charsLt b a = true := by
    cases hba : charsLt b a
    · exact absurd hba hc
    · rfl
  have h3 := charsLt_trans h h2
  rw [charsLt_irrefl a] at h3
  exact absurd h3 (by simp)

theorem charsLt_connex : ∀ {a b : Chars},
    charsLt a b = false → charsLt b a = false → a = b := by
  intro a
  induction a with
  | nil =>
    intro b h1 _
    cases b with
    | nil => rfl
    | cons y ys => exact absurd h1 (by simp [charsLt])
  | cons x xs ih =>
    intro b h1 h2
    cases b with
    | nil => exact absurd h2 (by simp [charsLt])
    | cons y ys =>
      simp only [charsLt, Bool.or_eq_false_iff, Bool.and_eq_false_iff,
        decide_eq_false_iff_not] at h1 h2
      have hxy : x = y := by
        have hnlt1 : ¬x < y := h1.1
        have hnlt2 : ¬y < x := h2.1
        exact le_antisymm (not_lt.mp hnlt2) (not_lt.mp hnlt1)
      subst hxy
      have hxs : charsLt xs ys = false := by
        rcases h1.2 with h | h
        · exact absurd rfl h
        · cases hv : charsLt xs ys
          · rfl
          · exact absurd hv (by simp [h])
      have hys : charsLt ys xs = false := by
        rcases h2.2 with h | h
        · exact absurd rfl h
        · cases hv : charsLt ys xs
          · rfl
          · exact absurd hv (by simp [h])
      rw [ih hxs hys]

theorem charsLt_false_trans {a b c : Chars} (h1 : charsLt b a = false)
    (h2 : charsLt c b = false) : charsLt c a = false := by
  cases hv : charsLt c a
  · rfl
  · exfalso
    cases hab : charsLt a b
    · have hba := charsLt_connex h1 hab
      rw [hba] at h2
      exact absurd hv (by simp [h2])
    · have h3 := charsLt_trans hv hab
      exact absurd h3 (by simp [h2])

/-! The sort comparator on homogeneously typed column values. -/

theorem rowLe_asc_num {k : Chars} {a b : Record} {p q : ℚ}
    (ha : alistGet a k = some (Value.num p)) (hb : alistGet b k = some (Value.num q)) :
    rowLe k false a b = true ↔ p ≤ q := by
  unfold rowLe rowCompare jsCompare
  rw [ha, hb, if_neg Bool.false_ne_true]
  simp only [jsStrictEq, jsGreater]
  by_cases hpq : p = q
  · subst hpq
    simp
  · rw [if_neg (by simpa using hpq)]
    by_cases hlt : q < p
    · rw [if_pos (by simpa using hlt)]
      exact iff_of_false (by simp) (not_le.mpr hlt)
    · rw [if_neg (by simpa using hlt)]
      exact iff_of_true (by simp) (le_of_not_lt hlt)

theorem rowLe_desc_num {k : Chars} {a b : Record} {p q : ℚ}
    (ha : alistGet a k = some (Value.num p)) (hb : alistGet b k = some (Value.num q)) :
    rowLe k true a b = true ↔ q ≤ p := by
  unfold rowLe rowCompare jsCompare
  rw [ha, hb, if_pos rfl]
  simp only [jsStrictEq, jsGreater]
  by_cases hpq : p = q
  · subst hpq
    simp
  · rw [if_neg (by simpa using hpq)]
    by_cases hlt : q < p
    · rw [if_pos (by simpa using hlt)]
      exact iff_of_true (by simp) (le_of_lt hlt)
    · rw [if_neg (by simpa using hlt)]
      exact iff_of_false (by simp)
        (not_le.mpr (lt_of_le_of_ne (le_of_not_lt hlt) hpq))

theorem rowLe_asc_str {k : Chars} {a b : Record} {u w : Chars}
    (ha : alistGet a k = some (Value.str u)) (hb : alistGet b k = some (Value.str w)) :
    rowLe k false a b = true ↔ charsLt w u = false := by
  unfold rowLe rowCompare jsCompare
  rw [ha, hb, if_neg Bool.false_ne_true]
  simp only [jsStrictEq, jsGreater]
  by_cases huw : u = w
  · subst huw
    simp [charsLt_irrefl]
  · rw [if_neg (by simpa using huw)]
    by_cases hlt : charsLt w u = true
    · rw [if_pos hlt]
      exact iff_of_false (by simp) (by simp [hlt])
    · rw [if_neg hlt]
      exact iff_of_true (by simp) (by simpa using hlt)

theorem rowLe_desc_str {k : Chars} {a b : Record} {u w : Chars}
    (ha : alistGet a k = some (Value.str u)) (hb : alistGet b k = some (Value.str w)) :
    rowLe k true a b = true ↔ charsLt u w = false := by
  unfold rowLe rowCompare jsCompare
  rw [ha, hb, if_pos rfl]
  simp only [jsStrictEq, jsGreater]
  by_cases huw : u = w
  · subst huw
    simp [charsLt_irrefl]
  · rw [if_neg (by simpa using huw)]
    by_cases hlt : charsLt w u = true
    · rw [if_pos hlt]
      exact iff_of_true (by simp) (charsLt_asymm hlt)
    · rw [if_neg hlt]
      refine iff_of_false (by simp) ?_
      intro hfalse
      exact huw (charsLt_connex hfalse (by simpa using hlt))

/-- Assembly of the sorting claims from the order-theoretic side conditions. -/
theorem c4_bundle (k : Chars) (l : List Record) (v : Option Value)
    (htotA : ∀ a b, a ∈ l → b ∈ l →
      rowLe k false a b = true ∨ rowLe k false b a = true)
    (htransA : ∀ a b c, a ∈ l → b ∈ l → c ∈ l → rowLe k false a b = true →
      rowLe k false b c = true → rowLe k false a c = true)
    (htotD : ∀ a b, a ∈ l → b ∈ l →
      rowLe k true a b = true ∨ rowLe k true b a = true)
    (htransD : ∀ a b c, a ∈ l → b ∈ l → c ∈ l → rowLe k true a b = true →
      rowLe k true b c = true → rowLe k true a c = true)
    (heqle : ∀ a b, a ∈ l → b ∈ l → alistGet a k = alistGet b k →
      rowLe k false a b = true ∧ rowLe k true a b = true)
    (hantiD : ∀ a b, a ∈ l → b ∈ l → rowLe k true a b = true →
      rowLe k true b a = true → alistGet a k = alistGet b k)
    (hflip : ∀ a b, a ∈ l → b ∈ l → rowLe k false a b = true →
      rowLe k true b a = true) :
    (sortedData l (some k) false).filter (fun r => decide (alistGet r k = v)) =
        l.filter (fun r => decide (alistGet r k = v)) ∧
    (sortedData l (some k) true).filter (fun r => decide (alistGet r k = v)) =
        l.filter (fun r => decide (alistGet r k = v)) ∧
    sortedData (sortedData l (some k) false) (some k) false = sortedData l (some k) false ∧
    sortedData (sortedData l (some k) true) (some k) true = sortedData l (some k) true ∧
    ((l.map (fun r => alistGet r k)).Nodup →
      sortedData l (some k) true = (sortedData l (some k) false).reverse) := by
  have hpermA := isortB_perm (rowLe k false) l
  have hpermD := isortB_perm (rowLe k true) l
  have hpwA : List.Pairwise (fun a b => rowLe k false a b = true) (isortB (rowLe k false) l) :=
    pairwise_isortB (rowLe k false) (· ∈ l) htotA htransA l (fun a ha => ha)
  have hpwD : List.Pairwise (fun a b => rowLe k true a b = true) (isortB (rowLe k true) l) :=
    pairwise_isortB (rowLe k true) (· ∈ l) htotD htransD l (fun a ha => ha)
  refine ⟨?_, ?_, ?_, ?_, ?_⟩
  · unfold sortedData
    refine filter_isortB _ _ l (fun a b ha hb hpa hpb => ?_)
    exact (heqle a b ha hb ((of_decide_eq_true hpa).trans (of_decide_eq_true hpb).symm)).1
  · unfold sortedData
    refine filter_isortB _ _ l (fun a b ha hb hpa hpb => ?_)
    exact (heqle a b ha hb ((of_decide_eq_true hpa).trans (of_decide_eq_true hpb).symm)).2
  · unfold sortedData
    exact isortB_of_pairwise _ _ hpwA
  · unfold sortedData
    exact isortB_of_pairwise _ _ hpwD
  · intro hnodup
    unfold sortedData
    have hinj : ∀ x ∈ l, ∀ y ∈ l, alistGet x k = alistGet y k → x = y :=
      fun x hx y hy hxy => List.inj_on_of_nodup_map hnodup hx hy hxy
    have hpwRev : List.Pairwise (fun a b => rowLe k true a b = true)
        ((isortB (rowLe k false) l).reverse) := by
      rw [List.pairwise_reverse]
      refine List.Pairwise.imp_of_mem (fun hma hmb hab => ?_) hpwA
      exact hflip _ _ (hpermA.mem_iff.mp hma) (hpermA.mem_iff.mp hmb) hab
    have hperm2 : (isortB (rowLe k true) l).Perm ((isortB (rowLe k false) l).reverse) :=
      hpermD.trans (hpermA.symm.trans (List.reverse_perm _).symm)
    exact eq_of_perm_of_pairwiseB (rowLe k true) _ _
      (fun a b ha hb h1 h2 => hinj a (hpermD.mem_iff.mp ha) b (hpermD.mem_iff.mp hb)
        (hantiD a b (hpermD.mem_iff.mp ha) (hpermD.mem_iff.mp hb) h1 h2))
      hperm2 hpwD hpwRev

/-- C4: for a column whose filtered values share one primitive JS type,
sorting is stable — records with equal column values keep their relative
order under both directions (filter-subsequence form), re-sorting by the
same key and direction is a no-op on order — and with pairwise-distinct
column values the descending order is exactly the reverse of the ascending
order. -/
theorem c4_sorting (k : Chars) (l : List Record) (v : Option Value)
    (hg : KeyHomogeneous k l) :
    (sortedData l (some k) false).filter (fun r => decide (alistGet r k = v)) =
        l.filter (fun r => decide (alistGet r k = v)) ∧
    (sortedData l (some k) true).filter (fun r => decide (alistGet r k = v)) =
        l.filter (fun r => decide (alistGet r k = v)) ∧
    sortedData (sortedData l (some k) false) (some k) false = sortedData l (some k) false ∧
    sortedData (sortedData l (some k) true) (some k) true = sortedData l (some k) true ∧
    ((l.map (fun r => alistGet r k)).Nodup →
      sortedData l (some k) true = (sortedData l (some k) false).reverse) := by
  rcases hg with hnum | hstr
  · refine c4_bundle k l v ?_ ?_ ?_ ?_ ?_ ?_ ?_
    · intro a b ha hb
      obtain ⟨p, hp⟩ := hnum a ha
      obtain ⟨q, hq⟩ := hnum b hb
      rcases le_total p q with h | h
      · exact Or.inl ((rowLe_asc_num hp hq).mpr h)
      · exact Or.inr ((rowLe_asc_num hq hp).mpr h)
    · intro a b c ha hb hc h1 h2
      obtain ⟨p, hp⟩ := hnum a ha
      obtain ⟨q, hq⟩ := hnum b hb
      obtain ⟨r, hr⟩ := hnum c hc
      exact (rowLe_asc_num hp hr).mpr
        (le_trans ((rowLe_asc_num hp hq).mp h1) ((rowLe_asc_num hq hr).mp h2))
    · intro a b ha hb
      obtain ⟨p, hp⟩ := hnum a ha
      obtain ⟨q, hq⟩ := hnum b hb
      rcases le_total q p with h | h
      · exact Or.inl ((rowLe_desc_num hp hq).mpr h)
      · exact Or.inr ((rowLe_desc_num hq hp).mpr h)
    · intro a b c ha hb hc h1 h2
      obtain ⟨p, hp⟩ := hnum a ha
      obtain ⟨q, hq⟩ := hnum b hb
      obtain ⟨r, hr⟩ := hnum c hc
      exact (rowLe_desc_num hp hr).mpr
        (le_trans ((rowLe_desc_num hq hr).mp h2) ((rowLe_desc_num hp hq).mp h1))
    · intro a b ha hb heq
      obtain ⟨p, hp⟩ := hnum a ha
      obtain ⟨q, hq⟩ := hnum b hb
      rw [hp, hq] at heq
      have hpq : p = q := by simpa using heq
      subst hpq
      exact ⟨(rowLe_asc_num hp hq).mpr (le_refl p), (rowLe_desc_num hp hq).mpr (le_refl p)⟩
    · intro a b ha hb h1 h2
      obtain ⟨p, hp⟩ := hnum a ha
      obtain ⟨q, hq⟩ := hnum b hb
      have hpq : p = q :=
        le_antisymm ((rowLe_desc_num hq hp).mp h2) ((rowLe_desc_num hp hq).mp h1)
      rw [hp, hq, hpq]
    · intro a b ha hb h1
      obtain ⟨p, hp⟩ := hnum a ha
      obtain ⟨q, hq⟩ := hnum b hb
      exact (rowLe_desc_num hq hp).mpr ((rowLe_asc_num hp hq).mp h1)
  · refine c4_bundle k l v ?_ ?_ ?_ ?_ ?_ ?_ ?_
    · intro a b ha hb
      obtain ⟨u, hu⟩ := hstr a ha
      obtain ⟨w, hw⟩ := hstr b hb
      by_cases h : charsLt w u = true
      · exact Or.inr ((rowLe_asc_str hw hu).mpr (charsLt_asymm h))
      · exact Or.inl ((rowLe_asc_str hu hw).mpr (by simpa using h))
    · intro a b c ha hb hc h1 h2
      obtain ⟨u, hu⟩ := hstr a ha
      obtain ⟨w, hw⟩ := hstr b hb
      obtain ⟨x, hx⟩ := hstr c hc
      exact (rowLe_asc_str hu hx).mpr
        (charsLt_false_trans ((rowLe_asc_str hu hw).mp h1) ((rowLe_asc_str hw hx).mp h2))
    · intro a b ha hb
      obtain ⟨u, hu⟩ := hstr a ha
      obtain ⟨w, hw⟩ := hstr b hb
      by_cases h : charsLt u w = true
      · exact Or.inr ((rowLe_desc_str hw hu).mpr (charsLt_asymm h))
      · exact Or.inl ((rowLe_desc_str hu hw).mpr (by simpa using h))
    · intro a b c ha hb hc h1 h2
      obtain ⟨u, hu⟩ := hstr a ha
      obtain ⟨w, hw⟩ := hstr b hb
      obtain ⟨x, hx⟩ := hstr c hc
      have g1 : charsLt u w = false := (rowLe_desc_str hu hw).mp h1
      have g2 : charsLt w x = false := (rowLe_desc_str hw hx).mp h2
      exact (rowLe_desc_str hu hx).mpr (charsLt_false_trans g2 g1)
    · intro a b ha hb heq
      obtain ⟨u, hu⟩ := hstr a ha
      obtain ⟨w, hw⟩ := hstr b hb
      rw [hu, hw] at heq
      have huw : u = w := by simpa using heq
      subst huw
      exact ⟨(rowLe_asc_str hu hw).mpr (charsLt_irrefl u),
        (rowLe_desc_str hu hw).mpr (charsLt_irrefl u)⟩
    · intro a b ha hb h1 h2
      obtain ⟨u, hu⟩ := hstr a ha
      obtain ⟨w, hw⟩ := hstr b hb
      have g1 : charsLt u w = false := (rowLe_desc_str hu hw).mp h1
      have g2 : charsLt w u = false := (rowLe_desc_str hw hu).mp h2
      have huw : w = u := charsLt_connex g2 g1
      rw [hu, hw, huw]
    · intro a b ha hb h1
      obtain ⟨u, hu⟩ := hstr a ha
      obtain ⟨w, hw⟩ := hstr b hb
      exact (rowLe_desc_str hw hu).mpr ((rowLe_asc_str hu hw).mp h1)

/-- C4 (witness): a concrete numeric column is homogeneous; re-sorting is a
no-op there and descending order is the reverse of ascending order. -/
theorem c4_witness :
    KeyHomogeneous "a".toList c4table ∧
    sortedData (sortedData c4table (some "a".toList) false) (some "a".toList) false =
      sortedData c4table (some "a".toList) false ∧
    sortedData c4table (some "a".toList) true =
      (sortedData c4table (some "a".toList) false).reverse := by
  have hg : KeyHomogeneous "a".toList c4table := Or.inl (by
    intro r hr
    rcases List.mem_cons.mp hr with h | h
    · exact ⟨2, by rw [h]; decide!⟩
    · rcases List.mem_cons.mp h with h2 | h2
      · exact ⟨1, by rw [h2]; decide!⟩
      · exact absurd h2 (List.not_mem_nil r))
  refine ⟨hg, (c4_sorting "a".toList c4table (some (Value.num 2)) hg).2.2.1, ?_⟩
  exact (c4_sorting "a".toList c4table (some (Value.num 2)) hg).2.2.2.2 (by decide!)

/-! Character-safety of the numeric rendering, and the export claim. -/

theorem digitChar_ok (d : Nat) : okChar (digitChar d) = true := by
  rcases d with _ | _ | _ | _ | _ | _ | _ | _ | _ | _ | d <;> rfl

theorem natToCharsAux_ok (fuel : Nat) :
    ∀ (n : Nat) (acc : Chars), (∀ c ∈ acc, okChar c = true) →
    ∀ c ∈ natToCharsAux fuel n acc, okChar c = true := by
  induction fuel with
  | zero => intro n acc hacc c hc; exact hacc c hc
  | succ fuel ih =>
    intro n acc hacc c hc
    simp only [natToCharsAux] at hc
    split at hc
    · exact hacc c hc
    · refine ih (n / 10) _ ?_ c hc
      intro x hx
      rcases List.mem_cons.mp hx with h | h
      · rw [h]; exact digitChar_ok _
      · exact hacc x h

theorem natToChars_ok (n : Nat) : ∀ c ∈ natToChars n, okChar c = true := by
  intro c hc
  unfold natToChars at hc
  split at hc
  · rw [List.mem_singleton.mp hc]; rfl
  · exact natToCharsAux_ok _ _ _ (fun x hx => absurd hx (List.not_mem_nil x)) c hc

theorem fracChars_ok (fuel : Nat) :
    ∀ rem den, ∀ c ∈ fracChars fuel rem den, okChar c = true := by
  induction fuel with
  | zero => intro rem den c hc; exact absurd hc (List.not_mem_nil c)
  | succ fuel ih =>
    intro rem den c hc
    simp only [fracChars] at hc
    split at hc
    · exact absurd hc (List.not_mem_nil c)
    · rcases List.mem_cons.mp hc with h | h
      · rw [h]; exact digitChar_ok _
      · exact ih _ _ c h

theorem numToChars_ok (q : ℚ) : ∀ c ∈ numToChars q, okChar c = true := by
  intro c hc
  simp only [numToChars, List.mem_append] at hc
  rcases hc with (h | h) | h
  · split at h
    · rw [List.mem_singleton.mp h]; rfl
    · exact absurd h (List.not_mem_nil c)
  · exact natToChars_ok _ c h
  · split at h
    · exact absurd h (List.not_mem_nil c)
    · rcases List.mem_cons.mp h with h1 | h1
      · rw [h1]; rfl
      · exact fracChars_ok _ _ _ c h1

theorem hasCharL_false_of_ok (ch : Char) (cs : Chars) (hch : okChar ch = false)
    (hok : ∀ c ∈ cs, okChar c = true) : hasCharL ch cs = false := by
  unfold hasCharL
  rw [List.any_eq_false]
  intro x hx
  have h := hok x hx
  simp only [decide_eq_true_eq]
  intro he
  rw [he] at h
  rw [h] at hch
  exact absurd hch (by simp)

theorem numToChars_noComma (q : ℚ) : hasCharL ',' (numToChars q) = false :=
  hasCharL_false_of_ok ',' _ rfl (numToChars_ok q)

theorem numToChars_noQuote (q : ℚ) : hasCharL '"' (numToChars q) = false :=
  hasCharL_false_of_ok '"' _ rfl (numToChars_ok q)

/-- C9 (amended): every exported field equals the specification-side
rendering — a value whose rendered string form contains a comma or double
quote is wrapped in doubled-quote quoting (numeric renderings never need it:
they contain no comma and no quote, last two conjuncts), and a currency cell
keeps a stored number (NaN rendered as the text NaN) while any other stored
currency value is rendered as its parsed numeric prefix, defaulting to 0. -/
theorem c9_amended (t : ColType) (v : Option Value) (q : ℚ) :
    exportCell t v = specExportCell t v ∧
    hasCharL ',' (numToChars q) = false ∧ hasCharL '"' (numToChars q) = false := by
  refine ⟨?_, numToChars_noComma q, numToChars_noQuote q⟩
  have hnum : ∀ p : ℚ, (if (hasCharL ',' (numToChars p) || hasCharL '"' (numToChars p)) = true
      then quoteCell (numToChars p) else numToChars p) = numToChars p := by
    intro p
    rw [numToChars_noComma p, numToChars_noQuote p]
    rfl
  by_cases ht : t = ColType.currency
  · subst ht
    simp only [exportCell, specExportCell, renderVal, eq_self_iff_true, if_true]
    cases v with
    | none =>
      cases hpf : jsParseFloatL (jsCoerceChars none) with
      | none => simp only [hpf, Option.getD_none]; exact (hnum 0).symm
      | some p => simp only [hpf, Option.getD_some]; exact (hnum p).symm
    | some val =>
      cases val with
      | num p => exact (hnum p).symm
      | nan => rfl
      | str s =>
        cases hpf : jsParseFloatL (jsCoerceChars (some (Value.str s))) with
        | none => simp only [hpf, Option.getD_none]; exact (hnum 0).symm
        | some p => simp only [hpf, Option.getD_some]; exact (hnum p).symm
  · simp only [exportCell, specExportCell, renderVal, if_neg ht]
    cases v with
    | none => rfl
    | some val =>
      cases val with
      | num p => exact (hnum p).symm
      | nan => rfl
      | str s => rfl

/-- C10: computing a page view is a pure render pass — the component state
(the stored record sequence in particular) is returned unchanged, and every
row of the view is literally a member of the stored data, fields identical
(sorting runs on a spread copy of the filtered array). -/
theorem c10_frame (st : TableState) (ipp : Nat) :
    (queryStep st ipp).2 = st ∧
    ∀ r, r ∈ (queryStep st ipp).1 → r ∈ st.data := by
  refine ⟨rfl, fun r hr => ?_⟩
  have h1 : r ∈ sortedData (filteredData st.data st.globalFilter) st.sortKey st.sortDesc := by
    unfold queryStep computeView paginatedData at hr
    exact List.mem_of_mem_drop (List.mem_of_mem_take hr)
  have h2 : r ∈ filteredData st.data st.globalFilter :=
    (sortedData_perm _ _ _).mem_iff.mp h1
  unfold filteredData at h2
  by_cases hf : st.globalFilter = []
  · rw [if_pos hf] at h2
    exact h2
  · rw [if_neg hf] at h2
    exact List.mem_of_mem_filter h2

/-- C10 (witness): a concrete view row is a member of the concrete table. -/
theorem c10_witness :
    (queryStep c10state 10).2 = c10state ∧ c10row ∈ c10state.data :=
  ⟨(c10_frame c10state 10).1, (c10_frame c10state 10).2 c10row (by decide!)⟩

end DataTable
